import Mathlib

/-!
# Verification of the Thundercracker master-simulation core (`system_mc.cpp`)

Shallow embedding of the radio-transaction protocol, the simulated clock,
the synchronized-rendezvous window bounds, the fixed-point tick-to-time
conversion and the flash image installation boundary operation, translated
from `src/emulator/src/system_mc.cpp`.

Machine integers are modelled as `Nat` with explicit `% 2^w` where wrap
matters.  The compile-time constants `MAX_RETRIES` and `TICKS_PER_PACKET`
(declared in `system_mc.h`, which is not part of the sources) are treated
as parameters `R` and `Q` of the model; the claims quantify over them.
-/

namespace SystemMC

/-- A radio packet: a length byte plus payload bytes
(`Cube::Radio::Packet` / `PacketBuffer` in the source). -/
structure Packet where
  len : Nat
  payload : List Nat
deriving DecidableEq

/-- A radio address.  `RadioAddress::pack()` (declared in `radio.h`, not
part of the sources) produces the canonical packed 64-bit form used for
equality comparison; we model the address by that packed value. -/
structure RadioAddress where
  packed : Nat
deriving DecidableEq

/-- The packed representation used by `getCubeForAddress` for equality. -/
def RadioAddress.pack (a : RadioAddress) : Nat := a.packed

/-- One simulated cube (`Cube::Hardware`): its packed RX address
(`cube.spi.radio.getPackedRXAddr()`) and its radio protocol entry point
(`cube->spi.radio.handlePacket(packet, reply)`).  The cube simulation is
external to the sources (`cube.h`); since the cube runs forward to the
rendezvous-window bound before handling a packet, its response is modelled
as a function of the window tick and the incoming packet, returning the
acknowledgment flag and the reply packet. -/
structure Cube where
  packedRXAddr : Nat
  handlePacket : Nat → Packet → Bool × Packet

/-- An outgoing transmission (`PacketTransmission`): destination address
(a nullable pointer in the source, hence `Option`) and packet. -/
structure PacketTransmission where
  dest : Option RadioAddress
  packet : Packet

/-- The three reports `doRadioPacket` can deliver back to `RadioManager`
(the protocol-consuming layer). -/
inductive Report where
  | ackWithPacket (reply : Packet)
  | ackEmpty
  | timeout
deriving DecidableEq

/-- The rendezvous events issued by `beginPacket` / `endPacket`:
`getCubeSync().beginEventAt(bound, ...)` and `getCubeSync().endEvent(bound)`,
each carrying the simulated-tick upper bound of the window. -/
inductive SyncEvent where
  | beginEventAt (bound : Nat)
  | endEvent (bound : Nat)
deriving DecidableEq

/-- The tick bound carried by a rendezvous event. -/
def SyncEvent.bound : SyncEvent → Nat
  | .beginEventAt b => b
  | .endEvent b => b

/-- `SystemMC::getCubeForAddress`: linear scan over `sys->cubes[0..numCubes)`
returning the first cube whose packed RX address equals the destination's
packed form, or `NULL` (here `none`). -/
def getCubeForAddress (cubes : List Cube) (addr : RadioAddress) : Option Cube :=
  cubes.find? fun c => c.packedRXAddr == addr.pack

/-- One delivery attempt between `beginPacket()` and `endPacket()`:
`buf.ack = cube && cube->spi.radio.handlePacket(buf.packet, buf.reply)`.
If no cube matches the address, the acknowledgment flag is false and the
reply buffer keeps its zero-initialised contents. -/
def attemptResult (cubes : List Cube) (win : Nat) (p : Packet)
    (d : RadioAddress) : Bool × Packet :=
  match getCubeForAddress cubes d with
  | none => (false, ⟨0, []⟩)
  | some c => c.handlePacket win p

/-- Outcome of one `doRadioPacket` transaction: the final tick counter,
the number of delivery attempts performed, the rendezvous events issued
(in order), and the reports delivered to the consuming layer (in order). -/
structure RadioResult where
  ticks : Nat
  attempts : Nat
  syncEvents : List SyncEvent
  reports : List Report
deriving DecidableEq

/-- The retry loop of `SystemMC::doRadioPacket`
(`for (unsigned retry = 0; retry < MAX_RETRIES; ++retry)`), recursing on
the number of remaining retries `r` with current tick counter `t`.
Each iteration performs `beginPacket()` (advance `ticks` by
`TICKS_PER_PACKET = Q` and issue `beginEventAt(ticks)`), one delivery
attempt, and `endPacket()` (issue `endEvent(ticks + Q)`).  On
acknowledgment it reports `ackWithPacket` for a non-empty reply and
`ackEmpty` otherwise and returns; when the loop exhausts the retries it
reports `timeout`. -/
def retryLoop (cubes : List Cube) (Q : Nat) (p : Packet) (d : RadioAddress) :
    Nat → Nat → RadioResult
  | 0, t => ⟨t, 0, [], [.timeout]⟩
  | r + 1, t =>
    let t2 := t + Q
    let ar := attemptResult cubes t2 p d
    if ar.1 then
      ⟨t2, 1, [.beginEventAt t2, .endEvent (t2 + Q)],
        [if ar.2.len = 0 then .ackEmpty else .ackWithPacket ar.2]⟩
    else
      let rest := retryLoop cubes Q p d r t2
      ⟨rest.ticks, rest.attempts + 1,
        .beginEventAt t2 :: .endEvent (t2 + Q) :: rest.syncEvents,
        rest.reports⟩

/-- `SystemMC::doRadioPacket`: the consuming layer produces a packet
(`RadioManager::produce(buf.ptx)`), then `ASSERT(buf.ptx.dest != NULL)`
aborts on a null destination (modelled as `none`); otherwise the retry
loop runs with retry bound `R` and slot quantum `Q` from tick counter `t`. -/
def doRadioPacket (cubes : List Cube) (R Q : Nat) (ptx : PacketTransmission)
    (t : Nat) : Option RadioResult :=
  match ptx.dest with
  | none => none
  | some d => some (retryLoop cubes Q ptx.packet d R t)

/-- Outcome of a sequence of transactions. -/
structure RunResult where
  ticks : Nat
  attempts : Nat
  syncEvents : List SyncEvent
deriving DecidableEq

/-- A sequence of radio transactions driven by the master loop
(`Radio::halt` → `doRadioPacket`, once per produced packet), threading the
tick counter and accumulating attempts and rendezvous events.  Aborts
(`none`) as soon as one transaction hits the null-destination assert. -/
def runTransactions (cubes : List Cube) (R Q : Nat) :
    List PacketTransmission → Nat → Option RunResult
  | [], t => some ⟨t, 0, []⟩
  | ptx :: rest, t =>
    match doRadioPacket cubes R Q ptx t with
    | none => none
    | some res =>
      match runTransactions cubes R Q rest res.ticks with
      | none => none
      | some out => some ⟨out.ticks, res.attempts + out.attempts,
          res.syncEvents ++ out.syncEvents⟩

/-- The canonical rendezvous-event trace of `k` consecutive delivery
attempts starting from tick counter `t` with slot quantum `Q`:
each attempt issues `beginEventAt (t + Q)` and `endEvent (t + Q + Q)` and
leaves the tick counter at `t + Q`. -/
def eventSeq (Q : Nat) : Nat → Nat → List SyncEvent
  | _, 0 => []
  | t, k + 1 => .beginEventAt (t + Q) :: .endEvent (t + Q + Q) ::
      eventSeq Q (t + Q) k

/-- The bounds passed on window open (`beginEventAt`) within an event trace. -/
def beginBoundsOf (evs : List SyncEvent) : List Nat :=
  evs.filterMap fun e =>
    match e with
    | .beginEventAt b => some b
    | .endEvent _ => none

/-- The bounds passed on window close / re-arm (`endEvent`) within a trace. -/
def endBoundsOf (evs : List SyncEvent) : List Nat :=
  evs.filterMap fun e =>
    match e with
    | .beginEventAt _ => none
    | .endEvent b => some b

/-- The sequence of open bounds of `k` attempts from tick `t`:
`t + Q, t + 2Q, ...`. -/
def openSeq (Q : Nat) : Nat → Nat → List Nat
  | _, 0 => []
  | t, k + 1 => (t + Q) :: openSeq Q (t + Q) k

/-- 2^32, the modulus of the C `unsigned` write address in `installELF`. -/
def U32 : Nat := 4294967296

/-- 2^64, the modulus of the 64-bit `SysTime::Ticks` arithmetic. -/
def U64 : Nat := 18446744073709551616

/-- The master system clock rate: 16 MHz (`SystemMC::TICK_HZ`; the value is
stated by the source comment in `SysTime::ticks`, "62.5 ns at 16 MHz"). -/
def TICK_HZ : Nat := 16000000

/-- Modelled from the spec: `SysTime::hzTicks` (declared in `systime.h`,
which is not part of the sources) is the "precomputed per-quantum
nanosecond-equivalent constant": the number of nanoseconds per cycle of a
clock of the given frequency. -/
def hzTicks (hz : Nat) : Nat := 1000000000 / hz

/-- `SysTime::ticks()`: fixed-point conversion of the simulated tick
counter to nanoseconds, in 64-bit integer math with a 60.4 fixed-point
layout: multiply by `hzTicks(TICK_HZ / 16)` and shift right by 4. -/
def sysTimeTicks (t : Nat) : Nat :=
  ((t * hzTicks (TICK_HZ / 16)) % U64) >>> 4

/-- The calls `installELF` makes against the thread lifecycle, the flash
device and the block cache, in order. -/
inductive FlashEvent where
  | stopThread
  | chipErase
  | write (addr : Nat) (bytes : List Nat)
  | invalidate
  | startThread
deriving DecidableEq

/-- Outcome of a completed `installELF` call: the returned boolean and the
ordered list of lifecycle/flash/cache calls it made. -/
structure InstallResult where
  success : Bool
  events : List FlashEvent
deriving DecidableEq

/-- The successive `fread(buf, 1, 512, elfFile)` results: the file contents
split into chunks of at most 512 bytes.  The C loop runs until `feof`; the
fuel argument (instantiated with the file length, an upper bound on the
number of non-empty reads) only makes the recursion structural. -/
def freadChunks : Nat → List Nat → List (List Nat)
  | _, [] => []
  | 0, _ => []
  | fuel + 1, b :: rest =>
    ((b :: rest).take 512) :: freadChunks fuel ((b :: rest).drop 512)

/-- The chunk sequence read from a file with the given contents. -/
def chunksOf (data : List Nat) : List (List Nat) := freadChunks data.length data

/-- Total number of bytes in a chunk sequence. -/
def totalLen (cs : List (List Nat)) : Nat := (cs.map List.length).sum

/-- The write loop of `installELF`: for each chunk with `rxed > 0`, call
`FlashDevice::write(addr, buf, rxed)` and advance `addr += rxed` (a C
`unsigned`, hence the `% U32`).  Modelled from the spec:
`FlashDevice::write` (in `flash_device.h`, not part of the sources) must
fail deterministically — an assertion-style abort, here `none` — rather
than wrap or overflow when `addr + rxed` exceeds the store's capacity. -/
def writeLoop (capacity : Nat) : Nat → List (List Nat) → Option (List FlashEvent)
  | _, [] => some []
  | addr, c :: cs =>
    if c.length = 0 then
      writeLoop capacity addr cs
    else if addr + c.length ≤ capacity then
      match writeLoop capacity ((addr + c.length) % U32) cs with
      | none => none
      | some evs => some (FlashEvent.write addr c :: evs)
    else
      none

/-- `SystemMC::installELF`: capture `restartThread = mThreadRunning` and
stop the thread if it was running; open the file (`file = none` models
`fopen` failure, `some data` models a file with contents `data`); on open
failure set `success = false`; otherwise erase the chip and run the write
loop from address 0 (an aborted write propagates as `none`).  Afterwards
unconditionally invalidate the flash block cache, restart the thread if it
was previously running, and return `success`. -/
def installELF (capacity : Nat) (running : Bool) (file : Option (List Nat)) :
    Option InstallResult :=
  let stopEvs : List FlashEvent := if running then [.stopThread] else []
  let startEvs : List FlashEvent := if running then [.startThread] else []
  match file with
  | none => some ⟨false, stopEvs ++ FlashEvent.invalidate :: startEvs⟩
  | some data =>
    match writeLoop capacity 0 (chunksOf data) with
    | none => none
    | some wevs =>
      some ⟨true, stopEvs ++ FlashEvent.chipErase :: wevs ++
        FlashEvent.invalidate :: startEvs⟩

/-- The thread running flag after replaying the lifecycle calls of an
event list on top of an initial state (`start()` sets it, `stop()` clears
it, flash and cache calls leave it alone). -/
def threadStateAfter (initial : Bool) : List FlashEvent → Bool
  | [] => initial
  | .stopThread :: evs => threadStateAfter false evs
  | .startThread :: evs => threadStateAfter true evs
  | .chipErase :: evs => threadStateAfter initial evs
  | .write _ _ :: evs => threadStateAfter initial evs
  | .invalidate :: evs => threadStateAfter initial evs

/-- A cube that always acknowledges with the 1-byte reply `0x42`
(concrete scenario A of the spec, packed address `0xABCD`). -/
def ackCube : Cube := ⟨43981, fun _ _ => (true, ⟨1, [66]⟩)⟩

/-- A concrete 3-byte transmission to packed address `0xABCD`. -/
def ptxA : PacketTransmission := ⟨some ⟨43981⟩, ⟨3, [1, 2, 3]⟩⟩

/-- Concrete scenario A: one always-acknowledging cube, one transaction. -/
def resA : RadioResult := (doRadioPacket [ackCube] 3 10 ptxA 0).getD ⟨0, 0, [], []⟩

/-- Concrete scenario B: no cube registered, retry bound 2, quantum 5. -/
def runB : RunResult := (runTransactions [] 2 5 [ptxA] 0).getD ⟨0, 0, []⟩

/-- Concrete scenario for the window bounds: no cube, retry bound 2,
quantum 1, a single transaction from tick 0. -/
def runC : RunResult := (runTransactions [] 2 1 [ptxA] 0).getD ⟨0, 0, []⟩

/-- The flattened sequence of rendezvous bounds of `runC`. -/
def boundsC : List Nat := runC.syncEvents.map SyncEvent.bound

/-- A concrete completed installation: capacity 1024, thread running,
5-byte file. -/
def installD : InstallResult :=
  (installELF 1024 true (some [1, 2, 3, 4, 5])).getD ⟨false, []⟩

/-- A concrete completed installation of an empty (zero-length) file. -/
def installEmpty : InstallResult :=
  (installELF 1024 true (some [])).getD ⟨false, []⟩

theorem retryLoop_ticks (cubes : List Cube) (Q : Nat) (p : Packet)
    (d : RadioAddress) (r t : Nat) :
    (retryLoop cubes Q p d r t).ticks =
      t + (retryLoop cubes Q p d r t).attempts * Q := by
  induction r generalizing t with
  | zero => simp [retryLoop]
  | succ r ih =>
    simp only [retryLoop]
    split
    · simp
    · simp only [ih (t + Q), Nat.succ_mul]
      omega

theorem retryLoop_attempts_le (cubes : List Cube) (Q : Nat) (p : Packet)
    (d : RadioAddress) (r t : Nat) :
    (retryLoop cubes Q p d r t).attempts ≤ r := by
  induction r generalizing t with
  | zero => simp [retryLoop]
  | succ r ih =>
    simp only [retryLoop]
    split
    · simp
    · exact Nat.succ_le_succ (ih (t + Q))

theorem retryLoop_syncEvents (cubes : List Cube) (Q : Nat) (p : Packet)
    (d : RadioAddress) (r t : Nat) :
    (retryLoop cubes Q p d r t).syncEvents =
      eventSeq Q t (retryLoop cubes Q p d r t).attempts := by
  induction r generalizing t with
  | zero => simp [retryLoop, eventSeq]
  | succ r ih =>
    simp only [retryLoop]
    split
    · simp [eventSeq]
    · simp [eventSeq, ih (t + Q)]

/-- Report classification of the retry loop: exactly one report is
produced, and it is `timeout` after all `r` retries were used, or the
acknowledgment report matching the reply the resolved cube returned at the
final window tick. -/
theorem retryLoop_reports (cubes : List Cube) (Q : Nat) (p : Packet)
    (d : RadioAddress) (r t : Nat) :
    (retryLoop cubes Q p d r t).reports.length = 1 ∧
      (((retryLoop cubes Q p d r t).reports = [Report.timeout] ∧
          (retryLoop cubes Q p d r t).attempts = r) ∨
        ∃ c reply, getCubeForAddress cubes d = some c ∧
          c.handlePacket (retryLoop cubes Q p d r t).ticks p = (true, reply) ∧
          (retryLoop cubes Q p d r t).reports =
            [if reply.len = 0 then Report.ackEmpty
             else Report.ackWithPacket reply]) := by
  induction r generalizing t with
  | zero => simp [retryLoop]
  | succ r ih =>
    simp only [retryLoop]
    split
    · next hack =>
      refine ⟨by simp, Or.inr ?_⟩
      rcases hc : getCubeForAddress cubes d with _ | c
      · exfalso
        rw [attemptResult, hc] at hack
        simp at hack
      · refine ⟨c, (attemptResult cubes (t + Q) p d).2, hc ▸ rfl, ?_, by simp⟩
        have hval : attemptResult cubes (t + Q) p d = c.handlePacket (t + Q) p := by
          rw [attemptResult, hc]
        rw [← hval]
        exact Prod.ext (by simpa using hack) rfl
    · next hnack =>
      obtain ⟨hlen, hcase⟩ := ih (t + Q)
      refine ⟨by simpa using hlen, ?_⟩
      rcases hcase with ⟨hrep, hatt⟩ | ⟨c, reply, hc, hhp, hrep⟩
      · exact Or.inl ⟨by simpa using hrep, by simp [hatt]⟩
      · exact Or.inr ⟨c, reply, hc, hhp, by simpa using hrep⟩

theorem doRadioPacket_some {cubes : List Cube} {R Q : Nat}
    {ptx : PacketTransmission} {t : Nat} {res : RadioResult}
    (h : doRadioPacket cubes R Q ptx t = some res) :
    ∃ d, ptx.dest = some d ∧ res = retryLoop cubes Q ptx.packet d R t := by
  cases hd : ptx.dest with
  | none => rw [doRadioPacket, hd] at h; cases h
  | some d =>
    rw [doRadioPacket, hd] at h
    exact ⟨d, rfl, (Option.some_injective _ h).symm⟩

theorem doRadioPacket_ticks {cubes : List Cube} {R Q : Nat}
    {ptx : PacketTransmission} {t : Nat} {res : RadioResult}
    (h : doRadioPacket cubes R Q ptx t = some res) :
    res.ticks = t + res.attempts * Q := by
  obtain ⟨d, _, rfl⟩ := doRadioPacket_some h
  exact retryLoop_ticks cubes Q ptx.packet d R t

theorem doRadioPacket_syncEvents {cubes : List Cube} {R Q : Nat}
    {ptx : PacketTransmission} {t : Nat} {res : RadioResult}
    (h : doRadioPacket cubes R Q ptx t = some res) :
    res.syncEvents = eventSeq Q t res.attempts := by
  obtain ⟨d, _, rfl⟩ := doRadioPacket_some h
  exact retryLoop_syncEvents cubes Q ptx.packet d R t

theorem getCubeForAddress_eq_none {cubes : List Cube} {d : RadioAddress}
    (h : ∀ c ∈ cubes, c.packedRXAddr ≠ d.pack) :
    getCubeForAddress cubes d = none := by
  rw [getCubeForAddress, List.find?_eq_none]
  intro c hc
  simpa using h c hc

/-- With no cube resolvable at the destination every attempt fails, so the
retry loop uses all `r` retries, reports a single timeout, and leaves the
clock advanced by `r` quanta. -/
theorem retryLoop_noCube {cubes : List Cube} {d : RadioAddress}
    (h : getCubeForAddress cubes d = none) (Q : Nat) (p : Packet)
    (r t : Nat) :
    retryLoop cubes Q p d r t = ⟨t + r * Q, r, eventSeq Q t r, [.timeout]⟩ := by
  induction r generalizing t with
  | zero => simp [retryLoop, eventSeq]
  | succ r ih =>
    have har : attemptResult cubes (t + Q) p d = (false, ⟨0, []⟩) := by
      rw [attemptResult, h]
    simp only [retryLoop, har, ih (t + Q), eventSeq]
    have : t + Q + r * Q = t + (r + 1) * Q := by
      rw [Nat.succ_mul]; omega
    simp [this]

/-- C1: for every radio transaction that passes the destination assert,
exactly one of the three reports is delivered to the consuming layer:
`ackWithPacket reply` when the resolved cube acknowledged with a non-empty
reply, `ackEmpty` when it acknowledged with an empty reply, and `timeout`
when all `R` retries were exhausted without acknowledgment — never zero
reports and never more than one. -/
theorem doRadioPacket_exactly_one_report (cubes : List Cube) (R Q : Nat)
    (ptx : PacketTransmission) (t : Nat) (res : RadioResult)
    (h : doRadioPacket cubes R Q ptx t = some res) :
    res.reports.length = 1 ∧
      ∃ d, ptx.dest = some d ∧
        ((res.reports = [Report.timeout] ∧ res.attempts = R) ∨
          ∃ c reply, getCubeForAddress cubes d = some c ∧
            c.handlePacket res.ticks ptx.packet = (true, reply) ∧
            res.reports = [if reply.len = 0 then Report.ackEmpty
              else Report.ackWithPacket reply]) := by
  obtain ⟨d, hd, rfl⟩ := doRadioPacket_some h
  obtain ⟨hlen, hcase⟩ := retryLoop_reports cubes Q ptx.packet d R t
  exact ⟨hlen, d, hd, hcase⟩

/-- C1 witness: concrete scenario A — one cube at packed address `0xABCD`
that acknowledges with the 1-byte reply `0x42`; the single report is
`ackWithPacket`. -/
theorem doRadioPacket_exactly_one_report_witness :
    resA.reports.length = 1 ∧
      ∃ d, ptxA.dest = some d ∧
        ((resA.reports = [Report.timeout] ∧ resA.attempts = 3) ∨
          ∃ c reply, getCubeForAddress [ackCube] d = some c ∧
            c.handlePacket resA.ticks ptxA.packet = (true, reply) ∧
            resA.reports = [if reply.len = 0 then Report.ackEmpty
              else Report.ackWithPacket reply]) :=
  doRadioPacket_exactly_one_report [ackCube] 3 10 ptxA 0 resA rfl

/-- C2: across every sequence of transactions, the simulated tick counter
advances by exactly one fixed quantum `Q` per delivery attempt (retries
included), so the final counter equals the initial counter plus
`attempts * Q`, and in particular never decreases. -/
theorem runTransactions_clock (cubes : List Cube) (R Q : Nat)
    (txs : List PacketTransmission) (t : Nat) (out : RunResult)
    (h : runTransactions cubes R Q txs t = some out) :
    out.ticks = t + out.attempts * Q ∧ t ≤ out.ticks := by
  induction txs generalizing t out with
  | nil =>
    rw [runTransactions] at h
    obtain rfl := Option.some_injective _ h
    simp
  | cons ptx rest ih =>
    rw [runTransactions] at h
    split at h
    · cases h
    next res hp =>
      split at h
      · cases h
      next out2 hr =>
        obtain rfl := Option.some_injective _ h
        obtain ⟨h2, _⟩ := ih res.ticks out2 hr
        have h1 := doRadioPacket_ticks hp
        simp only [h2, h1, Nat.add_mul]
        omega

/-- C2 witness: concrete scenario B — no cube registered, retry bound 2,
quantum 5; after one transaction the clock stands at `0 + 2 * 5`. -/
theorem runTransactions_clock_witness :
    runB.ticks = 0 + runB.attempts * 5 ∧ 0 ≤ runB.ticks :=
  runTransactions_clock [] 2 5 [ptxA] 0 runB rfl

/-- C3: for every transaction whose destination matches no registered
cube, exactly `R` delivery attempts are made, after which the single
report `timeout` is produced and nothing else, with the clock advanced by
exactly `R` quanta. -/
theorem doRadioPacket_unresolvable_timeout (cubes : List Cube) (R Q : Nat)
    (ptx : PacketTransmission) (t : Nat) (d : RadioAddress)
    (hdest : ptx.dest = some d)
    (hnomatch : ∀ c ∈ cubes, c.packedRXAddr ≠ d.pack) :
    (doRadioPacket cubes R Q ptx t).map
        (fun res => (res.attempts, res.reports, res.ticks)) =
      some (R, [Report.timeout], t + R * Q) := by
  have hstep : doRadioPacket cubes R Q ptx t =
      some (retryLoop cubes Q ptx.packet d R t) := by
    rw [doRadioPacket, hdest]
  rw [hstep, retryLoop_noCube (getCubeForAddress_eq_none hnomatch)]
  simp

/-- C3 witness: concrete scenario B — no cube registered at all, retry
bound 3, quantum 5: exactly 3 attempts, a single timeout, clock advanced
by 15. -/
theorem doRadioPacket_unresolvable_timeout_witness :
    (doRadioPacket [] 3 5 ptxA 0).map
        (fun res => (res.attempts, res.reports, res.ticks)) =
      some (3, [Report.timeout], 0 + 3 * 5) :=
  doRadioPacket_unresolvable_timeout [] 3 5 ptxA 0 ⟨43981⟩ rfl (by simp)

theorem eventSeq_append (Q t k k' : Nat) :
    eventSeq Q t (k + k') = eventSeq Q t k ++ eventSeq Q (t + k * Q) k' := by
  induction k generalizing t with
  | zero => simp [eventSeq]
  | succ k ih =>
    have harith : t + Q + k * Q = t + (k + 1) * Q := by
      rw [Nat.succ_mul]; omega
    rw [Nat.succ_add]
    simp only [eventSeq, ih (t + Q), List.cons_append]
    rw [harith]

/-- The rendezvous trace of a whole run is the canonical trace of its
total attempt count. -/
theorem runTransactions_syncEvents {cubes : List Cube} {R Q : Nat}
    {txs : List PacketTransmission} {t : Nat} {out : RunResult}
    (h : runTransactions cubes R Q txs t = some out) :
    out.syncEvents = eventSeq Q t out.attempts := by
  induction txs generalizing t out with
  | nil =>
    rw [runTransactions] at h
    obtain rfl := Option.some_injective _ h
    simp [eventSeq]
  | cons ptx rest ih =>
    rw [runTransactions] at h
    split at h
    · cases h
    next res hp =>
      split at h
      · cases h
      next out2 hr =>
        obtain rfl := Option.some_injective _ h
        have h1 := doRadioPacket_syncEvents hp
        have ht := doRadioPacket_ticks hp
        have h2 := ih hr
        simp only [h1, h2, ht, eventSeq_append]

theorem beginBoundsOf_cons_begin (b : Nat) (l : List SyncEvent) :
    beginBoundsOf (.beginEventAt b :: l) = b :: beginBoundsOf l := by
  simp [beginBoundsOf]

theorem beginBoundsOf_cons_end (b : Nat) (l : List SyncEvent) :
    beginBoundsOf (.endEvent b :: l) = beginBoundsOf l := by
  simp [beginBoundsOf]

theorem endBoundsOf_cons_begin (b : Nat) (l : List SyncEvent) :
    endBoundsOf (.beginEventAt b :: l) = endBoundsOf l := by
  simp [endBoundsOf]

theorem endBoundsOf_cons_end (b : Nat) (l : List SyncEvent) :
    endBoundsOf (.endEvent b :: l) = b :: endBoundsOf l := by
  simp [endBoundsOf]

theorem beginBoundsOf_eventSeq (Q k t : Nat) :
    beginBoundsOf (eventSeq Q t k) = openSeq Q t k := by
  induction k generalizing t with
  | zero => simp [eventSeq, openSeq, beginBoundsOf]
  | succ k ih =>
    simp [eventSeq, openSeq, beginBoundsOf_cons_begin, beginBoundsOf_cons_end,
      ih (t + Q)]

theorem endBoundsOf_eventSeq (Q k t : Nat) :
    endBoundsOf (eventSeq Q t k) = openSeq Q (t + Q) k := by
  induction k generalizing t with
  | zero => simp [eventSeq, openSeq, endBoundsOf]
  | succ k ih =>
    simp [eventSeq, openSeq, endBoundsOf_cons_begin, endBoundsOf_cons_end,
      ih (t + Q)]

/-- Helper chain: the bound sequence of `k` attempts, preceded by the open
bound of the first attempt, is non-decreasing. -/
theorem eventSeq_bounds_chain_aux (Q k : Nat) : ∀ t : Nat,
    List.Chain' (· ≤ ·) ((t + Q) :: (eventSeq Q t k).map SyncEvent.bound) := by
  induction k with
  | zero => intro t; simp [eventSeq]
  | succ k ih =>
    intro t
    simp only [eventSeq, List.map_cons, SyncEvent.bound]
    rw [List.chain'_cons, List.chain'_cons]
    exact ⟨Nat.le_refl _, Nat.le_add_right _ _, ih (t + Q)⟩

/-- The flattened sequence of rendezvous bounds is non-decreasing. -/
theorem eventSeq_bounds_chain_le (Q k t : Nat) :
    List.Chain' (· ≤ ·) ((eventSeq Q t k).map SyncEvent.bound) := by
  cases k with
  | zero => simp [eventSeq]
  | succ k =>
    simp only [eventSeq, List.map_cons, SyncEvent.bound]
    rw [List.chain'_cons]
    exact ⟨Nat.le_add_right _ _, eventSeq_bounds_chain_aux Q k (t + Q)⟩

/-- The open bounds of successive attempts strictly increase. -/
theorem openSeq_chain_lt (Q : Nat) (hQ : 0 < Q) (k t : Nat) :
    List.Chain' (· < ·) (openSeq Q t k) := by
  induction k generalizing t with
  | zero => simp [openSeq]
  | succ k ih =>
    cases k with
    | zero => simp [openSeq]
    | succ k' =>
      simp only [openSeq]
      rw [List.chain'_cons]
      have htail := ih (t + Q)
      simp only [openSeq] at htail
      exact ⟨by omega, htail⟩

/-- C5 (amended): across every run, the flattened sequence of rendezvous
bounds (those passed to `beginEventAt` on open and to `endEvent` on
close/re-arm) is non-decreasing, and both the open bounds alone and the
close bounds alone are strictly increasing; only a close bound and the
immediately following open bound can be equal. -/
theorem runTransactions_window_bounds (cubes : List Cube) (R Q : Nat)
    (txs : List PacketTransmission) (t : Nat) (out : RunResult)
    (h : runTransactions cubes R Q txs t = some out) (hQ : 0 < Q) :
    List.Chain' (· ≤ ·) (out.syncEvents.map SyncEvent.bound) ∧
      List.Chain' (· < ·) (beginBoundsOf out.syncEvents) ∧
      List.Chain' (· < ·) (endBoundsOf out.syncEvents) := by
  rw [runTransactions_syncEvents h, beginBoundsOf_eventSeq, endBoundsOf_eventSeq]
  exact ⟨eventSeq_bounds_chain_le Q out.attempts t,
    openSeq_chain_lt Q hQ out.attempts t,
    openSeq_chain_lt Q hQ out.attempts (t + Q)⟩

/-- C5 witness for the amended claim: the concrete run `runC` (no cube,
retry bound 2, quantum 1, one transaction from tick 0). -/
theorem runTransactions_window_bounds_witness :
    List.Chain' (· ≤ ·) (runC.syncEvents.map SyncEvent.bound) ∧
      List.Chain' (· < ·) (beginBoundsOf runC.syncEvents) ∧
      List.Chain' (· < ·) (endBoundsOf runC.syncEvents) :=
  runTransactions_window_bounds [] 2 1 [ptxA] 0 runC rfl (by decide)

/-- C5 counterexample: on the concrete run `runC`, the flattened sequence
of bounds passed to `beginEventAt` and `endEvent` is `[1, 2, 2, 3]` — the
close bound of the first window equals the open bound of the next, so the
sequence of window upper bounds is not strictly increasing. -/
theorem runTransactions_bounds_not_strictly_increasing :
    boundsC = [1, 2, 2, 3] ∧ ¬ List.Chain' (· < ·) boundsC := by
  have h : boundsC = [1, 2, 2, 3] := rfl
  refine ⟨h, fun hc => ?_⟩
  rw [h, List.chain'_cons, List.chain'_cons] at hc
  exact absurd hc.2.1 (by decide)

/-- C4: the produced outgoing packet's destination must be non-null; a null
destination hits the assertion-style abort (`ASSERT(buf.ptx.dest != NULL)`),
modelled as `none`, and under the precondition that the consuming layer
supplies a non-null destination that abort branch is unreachable: the
transaction aborts exactly when the destination is null. -/
theorem doRadioPacket_aborts_iff_null_dest (cubes : List Cube) (R Q : Nat)
    (ptx : PacketTransmission) (t : Nat) :
    doRadioPacket cubes R Q ptx t = none ↔ ptx.dest = none := by
  cases h : ptx.dest <;> simp [doRadioPacket, h]

theorem totalLen_nil : totalLen [] = 0 := rfl

theorem totalLen_cons (c : List Nat) (cs : List (List Nat)) :
    totalLen (c :: cs) = c.length + totalLen cs := by
  simp [totalLen]

theorem freadChunks_totalLen : ∀ (fuel : Nat) (l : List Nat),
    l.length ≤ fuel → totalLen (freadChunks fuel l) = l.length := by
  intro fuel
  induction fuel with
  | zero =>
    intro l hl
    cases l with
    | nil => simp [freadChunks, totalLen]
    | cons b rest => simp at hl
  | succ fuel ih =>
    intro l hl
    cases l with
    | nil => simp [freadChunks, totalLen]
    | cons b rest =>
      rw [freadChunks, totalLen_cons, ih _ (by simp at hl ⊢; omega)]
      simp only [List.length_take, List.length_drop, List.length_cons]
      rw [Nat.min_def]
      split <;> omega

theorem chunksOf_totalLen (data : List Nat) :
    totalLen (chunksOf data) = data.length :=
  freadChunks_totalLen data.length data (Nat.le_refl _)

theorem writeLoop_writes_only {capacity : Nat} : ∀ {cs : List (List Nat)}
    {addr : Nat} {evs : List FlashEvent},
    writeLoop capacity addr cs = some evs →
    ∀ e ∈ evs, ∃ a b, e = FlashEvent.write a b := by
  intro cs
  induction cs with
  | nil =>
    intro addr evs h
    obtain rfl := Option.some_injective _ h
    simp
  | cons c cs ih =>
    intro addr evs h
    rw [writeLoop] at h
    split at h
    · exact ih h
    · split at h
      · split at h
        · cases h
        next evs' hw =>
          obtain rfl := Option.some_injective _ h
          intro e he
          rcases List.mem_cons.mp he with rfl | he'
          · exact ⟨addr, c, rfl⟩
          · exact ih hw e he'
      · cases h

theorem writeLoop_stays_in_bounds {capacity : Nat} (hcap : capacity < U32) :
    ∀ {cs : List (List Nat)} {addr : Nat} {evs : List FlashEvent},
    addr ≤ capacity → writeLoop capacity addr cs = some evs →
    addr + totalLen cs ≤ capacity := by
  intro cs
  induction cs with
  | nil =>
    intro addr evs haddr _
    simp [totalLen_nil, haddr]
  | cons c cs ih =>
    intro addr evs haddr h
    rw [writeLoop] at h
    rw [totalLen_cons]
    split at h
    · next hzero =>
      have := ih haddr h
      omega
    · split at h
      · next hbound =>
        split at h
        · cases h
        next evs' hw =>
          have hlt : addr + c.length < U32 := Nat.lt_of_le_of_lt hbound hcap
          rw [Nat.mod_eq_of_lt hlt] at hw
          have := ih hbound hw
          omega
      · cases h

/-- C6: installing an image larger than the store's capacity fails
deterministically — the modelled `FlashDevice::write` assertion aborts the
installation before the write address can wrap or overflow the store. -/
theorem installELF_too_large_fails (capacity : Nat) (running : Bool)
    (data : List Nat) (hcap : capacity < U32)
    (hbig : capacity < data.length) :
    installELF capacity running (some data) = none := by
  cases hw : writeLoop capacity 0 (chunksOf data) with
  | none => simp [installELF, hw]
  | some wevs =>
    exfalso
    have := writeLoop_stays_in_bounds hcap (Nat.zero_le capacity) hw
    rw [chunksOf_totalLen] at this
    omega

/-- C6 witness: a 5-byte image against a 4-byte store. -/
theorem installELF_too_large_fails_witness :
    installELF 4 false (some [1, 2, 3, 4, 5]) = none :=
  installELF_too_large_fails 4 false [1, 2, 3, 4, 5] (by decide) (by decide)

/-- C7: every completed installation — open success or open failure —
invalidates the flash block cache exactly once, after the write phase and
before the driver thread is restarted. -/
theorem installELF_invalidates_once (capacity : Nat) (running : Bool)
    (file : Option (List Nat)) (res : InstallResult)
    (h : installELF capacity running file = some res) :
    res.events.count FlashEvent.invalidate = 1 ∧
      ∃ pre, res.events = pre ++ FlashEvent.invalidate ::
          (if running then [FlashEvent.startThread] else []) ∧
        FlashEvent.invalidate ∉ pre := by
  cases file with
  | none =>
    rw [installELF] at h
    obtain rfl := Option.some_injective _ h
    refine ⟨?_, if running then [FlashEvent.stopThread] else [], rfl, ?_⟩ <;>
      cases running <;> simp
  | some data =>
    rw [installELF] at h
    split at h
    · cases h
    next wevs hw =>
      obtain rfl := Option.some_injective _ h
      have hnw : FlashEvent.invalidate ∉ wevs := by
        intro hmem
        obtain ⟨a, b, hab⟩ := writeLoop_writes_only hw _ hmem
        cases hab
      refine ⟨?_, (if running then [FlashEvent.stopThread] else []) ++
          FlashEvent.chipErase :: wevs, by simp, ?_⟩
      · have hcw : wevs.count FlashEvent.invalidate = 0 :=
          List.count_eq_zero.mpr hnw
        cases running <;>
          simp [List.count_append, List.count_cons, hcw, List.count_eq_zero]
      · cases running <;> simp [hnw]

/-- C7 witness: the concrete installation `installD` (capacity 1024,
thread running, 5-byte file). -/
theorem installELF_invalidates_once_witness :
    installD.events.count FlashEvent.invalidate = 1 ∧
      ∃ pre, installD.events = pre ++ FlashEvent.invalidate ::
          (if true then [FlashEvent.startThread] else []) ∧
        FlashEvent.invalidate ∉ pre :=
  installELF_invalidates_once 1024 true (some [1, 2, 3, 4, 5]) installD rfl

theorem threadStateAfter_append (init : Bool) (l1 l2 : List FlashEvent) :
    threadStateAfter init (l1 ++ l2) =
      threadStateAfter (threadStateAfter init l1) l2 := by
  induction l1 generalizing init with
  | nil => rfl
  | cons e l1 ih => cases e <;> simp [threadStateAfter, ih]

theorem threadStateAfter_no_lifecycle {evs : List FlashEvent}
    (hstop : FlashEvent.stopThread ∉ evs)
    (hstart : FlashEvent.startThread ∉ evs) (init : Bool) :
    threadStateAfter init evs = init := by
  induction evs with
  | nil => rfl
  | cons e evs ih =>
    cases e with
    | stopThread => exact absurd (List.mem_cons_self _ _) hstop
    | startThread => exact absurd (List.mem_cons_self _ _) hstart
    | chipErase =>
      exact ih (fun hm => hstop (List.mem_cons_of_mem _ hm))
        (fun hm => hstart (List.mem_cons_of_mem _ hm))
    | write a b =>
      exact ih (fun hm => hstop (List.mem_cons_of_mem _ hm))
        (fun hm => hstart (List.mem_cons_of_mem _ hm))
    | invalidate =>
      exact ih (fun hm => hstop (List.mem_cons_of_mem _ hm))
        (fun hm => hstart (List.mem_cons_of_mem _ hm))

/-- C8: every completed installation restores the master thread's
running/stopped state: if it was running, the very first call stops it and
the very last call restarts it (so installation runs with the driver
quiesced); if it was not running, no lifecycle call is made at all; in
both cases replaying the calls yields the initial state. -/
theorem installELF_restores_thread_state (capacity : Nat) (running : Bool)
    (file : Option (List Nat)) (res : InstallResult)
    (h : installELF capacity running file = some res) :
    threadStateAfter running res.events = running ∧
      (running = true → ∃ mid, res.events =
        FlashEvent.stopThread :: mid ++ [FlashEvent.startThread]) ∧
      (running = false → FlashEvent.stopThread ∉ res.events ∧
        FlashEvent.startThread ∉ res.events) := by
  have hres : ∃ mid, FlashEvent.stopThread ∉ mid ∧
      FlashEvent.startThread ∉ mid ∧
      res.events = (if running then [FlashEvent.stopThread] else []) ++
        mid ++ (if running then [FlashEvent.startThread] else []) := by
    cases file with
    | none =>
      rw [installELF] at h
      obtain rfl := Option.some_injective _ h
      exact ⟨[FlashEvent.invalidate], by simp, by simp, by cases running <;> simp⟩
    | some data =>
      rw [installELF] at h
      split at h
      · cases h
      next wevs hw =>
        obtain rfl := Option.some_injective _ h
        have hmid : ∀ e ∈ FlashEvent.chipErase :: wevs ++
            [FlashEvent.invalidate], e ≠ FlashEvent.stopThread ∧
            e ≠ FlashEvent.startThread := by
          intro e he
          rcases List.mem_cons.mp he with rfl | he'
          · simp
          rcases List.mem_append.mp he' with hw' | hinv
          · obtain ⟨a, b, rfl⟩ := writeLoop_writes_only hw e hw'
            simp
          · rcases List.mem_singleton.mp hinv with rfl
            simp
        refine ⟨FlashEvent.chipErase :: wevs ++ [FlashEvent.invalidate],
          fun hm => (hmid _ hm).1 rfl, fun hm => (hmid _ hm).2 rfl, ?_⟩
        cases running <;> simp
  obtain ⟨mid, hnostop, hnostart, hevs⟩ := hres
  cases running with
  | false =>
    have hevs2 : res.events = mid := by simpa using hevs
    rw [hevs2]
    refine ⟨threadStateAfter_no_lifecycle hnostop hnostart false, ?_, ?_⟩
    · intro hc; cases hc
    · intro _; exact ⟨hnostop, hnostart⟩
  | true =>
    have hevs2 : res.events =
        FlashEvent.stopThread :: (mid ++ [FlashEvent.startThread]) := by
      simpa using hevs
    rw [hevs2]
    refine ⟨?_, ?_, ?_⟩
    · have hstep : threadStateAfter true
          (FlashEvent.stopThread :: (mid ++ [FlashEvent.startThread])) =
          threadStateAfter (threadStateAfter false mid)
            [FlashEvent.startThread] := by
        rw [show threadStateAfter true
            (FlashEvent.stopThread :: (mid ++ [FlashEvent.startThread])) =
            threadStateAfter false (mid ++ [FlashEvent.startThread]) from rfl,
          threadStateAfter_append]
      rw [hstep, threadStateAfter_no_lifecycle hnostop hnostart]
      rfl
    · intro _; exact ⟨mid, by simp⟩
    · intro hc; cases hc

/-- C8 witness: the concrete installation `installD` with the thread
initially running. -/
theorem installELF_restores_thread_state_witness :
    threadStateAfter true installD.events = true ∧
      (true = true → ∃ mid, installD.events =
        FlashEvent.stopThread :: mid ++ [FlashEvent.startThread]) ∧
      (true = false → FlashEvent.stopThread ∉ installD.events ∧
        FlashEvent.startThread ∉ installD.events) :=
  installELF_restores_thread_state 1024 true (some [1, 2, 3, 4, 5]) installD rfl

/-- C10: a completed installation returns true exactly when the image
source could be opened — nothing after a successful open changes the
result — and installing an empty file returns true while performing the
full chip erase and no write at all. -/
theorem installELF_success_iff_opened (capacity : Nat) (running : Bool)
    (file : Option (List Nat)) (res : InstallResult)
    (h : installELF capacity running file = some res) :
    (res.success = true ↔ file.isSome = true) ∧
      (file = some [] → res.success = true ∧
        (∀ a b, FlashEvent.write a b ∉ res.events) ∧
        FlashEvent.chipErase ∈ res.events) := by
  cases file with
  | none =>
    rw [installELF] at h
    obtain rfl := Option.some_injective _ h
    exact ⟨by simp, fun hc => by cases hc⟩
  | some data =>
    rw [installELF] at h
    split at h
    · cases h
    next wevs hw =>
      obtain rfl := Option.some_injective _ h
      refine ⟨by simp, fun hdata => ⟨rfl, ?_, by cases running <;> simp⟩⟩
      obtain rfl : data = [] := Option.some_injective _ hdata
      have hempty : writeLoop capacity 0 (chunksOf []) = some [] := rfl
      obtain rfl : wevs = [] := Option.some_injective _ (hw.symm.trans hempty)
      intro a b
      cases running <;> simp

/-- C10 witness: installing the concrete empty file `installEmpty`
succeeds, erases, and writes nothing. -/
theorem installELF_success_iff_opened_witness :
    (installEmpty.success = true ↔ (some ([] : List Nat)).isSome = true) ∧
      (some ([] : List Nat) = some [] → installEmpty.success = true ∧
        (∀ a b, FlashEvent.write a b ∉ installEmpty.events) ∧
        FlashEvent.chipErase ∈ installEmpty.events) :=
  installELF_success_iff_opened 1024 true (some []) installEmpty rfl

/-- C9: for every tick count reachable in a multi-hour simulated run
(here up to 100 simulated hours at 16 MHz), the 64-bit fixed-point
conversion neither overflows nor loses precision: it equals the exact
product-then-shift reference, i.e. `ticks * 1000 / 16` nanoseconds
(62.5 ns per tick), with no floating point involved. -/
theorem sysTimeTicks_fixed_point (t : Nat)
    (h : t ≤ 16000000 * 3600 * 100) :
    sysTimeTicks t = (t * hzTicks (TICK_HZ / 16)) >>> 4 ∧
      sysTimeTicks t = t * 1000 / 16 := by
  have hconst : hzTicks (TICK_HZ / 16) = 1000 := by norm_num [hzTicks, TICK_HZ]
  have hmul : t * 1000 < U64 := by
    calc t * 1000 ≤ 16000000 * 3600 * 100 * 1000 := Nat.mul_le_mul_right _ h
    _ < U64 := by norm_num [U64]
  constructor
  · rw [sysTimeTicks, hconst, Nat.mod_eq_of_lt hmul]
  · rw [sysTimeTicks, hconst, Nat.mod_eq_of_lt hmul,
      Nat.shiftRight_eq_div_pow]

/-- C9 witness: 32 ticks convert to exactly 2000 ns. -/
theorem sysTimeTicks_fixed_point_witness :
    sysTimeTicks 32 = (32 * hzTicks (TICK_HZ / 16)) >>> 4 ∧
      sysTimeTicks 32 = 32 * 1000 / 16 :=
  sysTimeTicks_fixed_point 32 (by decide)

end SystemMC
